import Mathlib

/-!
Verification of the cycle-detection core of the rspack circular-dependency
plugin (`src/index.ts`).

The embedding models the stats snapshot strategy of the plugin:

* `StatsModule` / `Reason` mirror the fields of the bundler's stats records
  that the plugin reads (`id`, `name`, `orphan`, `reasons`, `moduleId`,
  `type`).  Module identifiers are strings: the plugin keys its module map
  with `Object.fromEntries([module.id, module])`, so every key of the map
  coincides with the stored module's `id`, and the map is modelled as the
  filtered module list with id-keyed lookup (`mapLookup`), last entry
  winning as in `Object.fromEntries`.
* `buildIndex` is the filter pipeline of `apply` (lines 44-54).
* `visitDFS` is `isCyclic` (lines 90-143).  The JavaScript function
  mutates a shared `seenModules` object and can throw a `TypeError` when
  `modulesById[currentModule]` is absent; the model threads the seen set
  explicitly and returns `Except DfsErr`, with `.typeErr` for the throw.
  Termination is by explicit fuel (`.noFuel` marks exhaustion);
  `fuel_suffices` shows the fuel used by `isCyclic` is never exhausted,
  so the fuel is a proof device only, not a semantic change.
* `reportCycle` is the per-cycle reporting branch of `apply` (lines 63-83),
  with the user callback modelled by its observable behaviour
  (returns or throws).
-/

namespace RspackCircular

/-- One inbound-reference record (an edge of the dependency graph): the
module identified by `moduleId` imports the module owning this record.
`type` classifies the import site (static vs dynamic). -/
structure Reason where
  moduleId : Option String
  type : Option String
deriving DecidableEq, Repr

/-- One compiled module as exposed by the stats snapshot. -/
structure StatsModule where
  id : String
  name : Option String
  orphan : Bool
  reasons : List Reason
deriving DecidableEq, Repr

/-- The resolved plugin options (`FullOptions` in the source).  The two
regular expressions are modelled by their match predicates; the
`onDetected` callback is modelled by its observable behaviour on a path:
normal return (`Except.ok`) or a thrown error (`Except.error`). -/
structure FullOptions where
  includePattern : String → Bool
  excludePattern : String → Bool
  failOnError : Bool
  allowAsyncCycles : Bool
  onDetected : Option (List String → Except String Unit)

/-- The user-supplied options object, every field optional. -/
structure Options where
  includePattern : Option (String → Bool) := none
  excludePattern : Option (String → Bool) := none
  failOnError : Option Bool := none
  allowAsyncCycles : Option Bool := none
  onDetected : Option (List String → Except String Unit) := none

/-- Default `include` option: the regex `/.*/` matches every string. -/
def defaultInclude : String → Bool := fun _ => true

/-- Default `exclude` option: the regex `/$^/` matches no string. -/
def defaultExclude : String → Bool := fun _ => false

/-- The plugin constructor (lines 27-37): fill each absent option with its
default. -/
def mkFullOptions (o : Options) : FullOptions :=
  { includePattern := o.includePattern.getD defaultInclude
    excludePattern := o.excludePattern.getD defaultExclude
    failOnError := o.failOnError.getD false
    allowAsyncCycles := o.allowAsyncCycles.getD false
    onDetected := o.onDetected }

/-- Options with every field defaulted. -/
def defaultOptions : FullOptions := mkFullOptions {}

/-- The filter of `apply` lines 46-52: a module is retained iff it is not
orphaned, has a non-empty name, the name matches `include` and does not
match `exclude`. -/
def passesFilter (opts : FullOptions) (m : StatsModule) : Bool :=
  !m.orphan &&
    (match m.name with
     | none => false
     | some s => s != "" && opts.includePattern s && !opts.excludePattern s)

/-- The module index (`modulesById`, lines 44-54): the retained modules.
Lookup is by the `id` field, matching `Object.fromEntries` keying every
entry by `module.id`. -/
def buildIndex (mods : List StatsModule) (opts : FullOptions) : List StatsModule :=
  mods.filter (passesFilter opts)

/-- Lookup in the module map.  `Object.fromEntries` lets the last entry of
a duplicated key win, hence the `reverse`. -/
def mapLookup (idx : List StatsModule) (k : String) : Option StatsModule :=
  idx.reverse.find? (fun m => m.id == k)

/-- Whether the character list `pat` starts the character list `s`. -/
def chPref : List Char → List Char → Bool
  | [], _ => true
  | _ :: _, [] => false
  | c :: cs, d :: ds => c == d && chPref cs ds

/-- Whether the character list `pat` occurs inside `s`. -/
def chSub (pat : List Char) : List Char → Bool
  | [] => chPref pat []
  | c :: rest => chPref pat (c :: rest) || chSub pat rest

/-- Whether the string `pat` occurs as a substring of `s`. -/
def strHasSub (s pat : String) : Bool := chSub pat.toList s.toList

/-- `normalizePath` (lines 21-22): strip one leading "./" if present. -/
def normalizePath (s : String) : String :=
  match s.toList with
  | '.' :: '/' :: rest => String.mk rest
  | _ => s

/-- The regex test of lines 109-110: `reason.type` matches
`/dynamic import|import\(\)/` iff it contains one of the two phrases. -/
def matchesDynamicImport : Option String → Bool
  | none => false
  | some t => strHasSub t "dynamic import" || strHasSub t "import()"

/-- Render a module for a cycle path: the normalized display name, or the
raw id when the name is absent (`normalizePath(name) ?? String(id)`). -/
def renderName (name : Option String) (fallbackId : String) : String :=
  match name with
  | some s => normalizePath s
  | none => fallbackId

/-- Render the module with identifier `z` of the index `idx`. -/
def renderId (idx : List StatsModule) (z : String) : String :=
  renderName ((mapLookup idx z).bind (fun m => m.name)) z

/-- Process one reason per lines 100-113: resolve the source module and
apply the three skip rules (absent / falsy `moduleId`; source module not
in the index or with falsy `id`; dynamic import while `allowAsyncCycles`).
Returns the source module when the edge is followed. -/
def reasonStep (opts : FullOptions) (idx : List StatsModule) (r : Reason) :
    Option StatsModule :=
  match r.moduleId with
  | none => none
  | some k =>
    if k == "" then none
    else
      match mapLookup idx k with
      | none => none
      | some rmod =>
        if rmod.id == "" then none
        else if opts.allowAsyncCycles && matchesDynamicImport r.type then none
        else some rmod

/-- The identifier reached by following one reason edge, when followed. -/
def reasonTarget (opts : FullOptions) (idx : List StatsModule) (r : Reason) :
    Option String :=
  (reasonStep opts idx r).map (fun m => m.id)

/-- Errors of the traversal model: `typeErr` is the `TypeError` the source
throws when `modulesById[currentModule]` is absent (line 99); `noFuel`
marks fuel exhaustion of the model and is proved unreachable. -/
inductive DfsErr where
  | typeErr
  | noFuel
deriving DecidableEq, Repr

/-- Result of a traversal call: the optional cycle path of the source,
paired with the final visited set (the source mutates `seenModules` in
place; the model returns it). -/
abbrev DfsResult := Except DfsErr (Option (List String) × List String)

/-- Insert into the visited set.  JavaScript's `seenModules[m] = true` on
an object keeps one key per identifier. -/
def insertSeen (x : String) (seen : List String) : List String :=
  if x ∈ seen then seen else x :: seen

/-- The `for` loop of `isCyclic` (lines 99-142), parametrised by the
recursive call `visitF` of the enclosing function.  For each reason:
skipped edges are passed over; an edge to an already-visited module
returns the two-element closing path when it reaches `initialModule`
from elsewhere and is otherwise ignored; any other edge recurses, and a
cycle from the recursion is extended with the current module's name. -/
def loopReasons (visitF : String → List String → DfsResult)
    (opts : FullOptions) (idx : List StatsModule)
    (initialModule currentModule : String) (currentModuleName : Option String) :
    List Reason → List String → DfsResult
  | [], seen => .ok (none, seen)
  | reason :: rest, seen =>
    match reasonStep opts idx reason with
    | none =>
      loopReasons visitF opts idx initialModule currentModule currentModuleName
        rest seen
    | some rmod =>
      if rmod.id ∈ seen then
        if rmod.id == initialModule && !(currentModule == initialModule) then
          .ok (some [renderName rmod.name rmod.id,
                     renderName currentModuleName currentModule], seen)
        else
          loopReasons visitF opts idx initialModule currentModule
            currentModuleName rest seen
      else
        match visitF rmod.id seen with
        | .error e => .error e
        | .ok (some p, seen') =>
          .ok (some (p ++ [renderName currentModuleName currentModule]), seen')
        | .ok (none, seen') =>
          loopReasons visitF opts idx initialModule currentModule
            currentModuleName rest seen'

/-- `isCyclic` (lines 90-143) with explicit fuel: mark the current module
visited, throw when it is absent from the index, otherwise run the reason
loop.  Each recursive call spends one unit of fuel. -/
def visitDFS (opts : FullOptions) (idx : List StatsModule) :
    Nat → String → String → List String → DfsResult
  | 0, _, _, _ => .error .noFuel
  | fuel + 1, initialModule, currentModule, seen =>
    match mapLookup idx currentModule with
    | none => .error .typeErr
    | some mod =>
      loopReasons (fun nxt sn => visitDFS opts idx fuel initialModule nxt sn)
        opts idx initialModule currentModule mod.name mod.reasons
        (insertSeen currentModule seen)

/-- `isCyclic` with the fuel fixed at `idx.length + 1`, which
`fuel_suffices` proves sufficient for every reachable call. -/
def isCyclic (opts : FullOptions) (idx : List StatsModule)
    (initialModule currentModule : String) (seen : List String) : DfsResult :=
  visitDFS opts idx (idx.length + 1) initialModule currentModule seen

/-- A top-level detector invocation as performed by `apply` (lines 56-61):
start and current module coincide and the visited set is empty; only the
optional path is observable. -/
def isCyclicTop (opts : FullOptions) (idx : List StatsModule) (m : String) :
    Except DfsErr (Option (List String)) :=
  (isCyclic opts idx m m []).map (fun r => r.1)

/-- The key list of the index (`Object.keys(modulesById)`): ids of the
retained modules, one occurrence each. -/
def keysOf (idx : List StatsModule) : List String :=
  (idx.map (fun m => m.id)).dedup

/-- All cycles the orchestrator loop detects: one optional path per index
key, keyed by the start module. -/
def detectedCycles (opts : FullOptions) (idx : List StatsModule) :
    List (String × List String) :=
  (keysOf idx).filterMap (fun m =>
    match isCyclicTop opts idx m with
    | .ok (some p) => some (m, p)
    | _ => none)

/-- The warnings and errors lists of the compilation object. -/
structure CompState where
  warnings : List String
  errors : List String
deriving DecidableEq, Repr

/-- The message prefix `BASE_ERROR` of line 18. -/
def baseErrorMsg : String := "Circular dependency detected:\r\n"

/-- The per-cycle reporting branch of `apply` (lines 63-83): hand the path
to `onDetected` when configured, pushing a thrown error to `errors`;
otherwise format the message and push it to `errors` or `warnings`
according to `failOnError`. -/
def reportCycle (opts : FullOptions) (st : CompState) (path : List String) :
    CompState :=
  match opts.onDetected with
  | some cb =>
    match cb path with
    | .error e => { st with errors := st.errors ++ [e] }
    | .ok _ => st
  | none =>
    let message := baseErrorMsg ++ String.intercalate " -> " path
    if opts.failOnError then { st with errors := st.errors ++ [message] }
    else { st with warnings := st.warnings ++ [message] }

/-- One non-skipped inbound-reference edge of the index: from module `c`
the traversal may step to module `t` (a retained module importing `c`). -/
def Edge (opts : FullOptions) (idx : List StatsModule) (c t : String) : Prop :=
  ∃ mod, mapLookup idx c = some mod ∧
    ∃ reason ∈ mod.reasons, reasonTarget opts idx reason = some t

/-- Reachability along non-skipped edges. -/
def Reaches (opts : FullOptions) (idx : List StatsModule) : String → String → Prop :=
  Relation.ReflTransGen (Edge opts idx)

/-- Module `m` lies on a cycle of retained modules: some module `c`
other than `m` is reachable from `m` and carries an edge back to `m`
(that is, `m` imports `c`, closing the chain of importers). -/
def HasCycleThrough (opts : FullOptions) (idx : List StatsModule) (m : String) :
    Prop :=
  ∃ c, c ≠ m ∧ Reaches opts idx m c ∧ Edge opts idx c m


/-! Basic facts about the visited set, the module map and single edges. -/

theorem mem_insertSeen_self (x : String) (seen : List String) :
    x ∈ insertSeen x seen := by
  by_cases h : x ∈ seen <;> simp [insertSeen, h]

theorem subset_insertSeen (x : String) (seen : List String) :
    seen ⊆ insertSeen x seen := by
  by_cases h : x ∈ seen <;> simp [insertSeen, h, List.subset_cons_self]

theorem mem_insertSeen {x y : String} {seen : List String} :
    y ∈ insertSeen x seen ↔ y = x ∨ y ∈ seen := by
  by_cases h : x ∈ seen
  · simp only [insertSeen, if_pos h]
    constructor
    · exact Or.inr
    · rintro (rfl | hy)
      · exact h
      · exact hy
  · simp [insertSeen, if_neg h]

theorem insertSeen_of_not_mem {x : String} {seen : List String} (h : x ∉ seen) :
    insertSeen x seen = x :: seen := by
  simp [insertSeen, h]

theorem nodup_insertSeen {x : String} {seen : List String} (h : seen.Nodup) :
    (insertSeen x seen).Nodup := by
  by_cases hx : x ∈ seen
  · simpa [insertSeen, hx] using h
  · rw [insertSeen_of_not_mem hx]
    exact List.nodup_cons.2 ⟨hx, h⟩

theorem mapLookup_id {idx : List StatsModule} {k : String} {mod : StatsModule}
    (h : mapLookup idx k = some mod) : mod.id = k := by
  have := List.find?_some h
  simpa using this

theorem mapLookup_mem {idx : List StatsModule} {k : String} {mod : StatsModule}
    (h : mapLookup idx k = some mod) : mod ∈ idx := by
  have := List.mem_of_find?_eq_some h
  simpa using this

theorem mapLookup_ne_none_of_mem {idx : List StatsModule} {mod : StatsModule}
    (h : mod ∈ idx) : mapLookup idx mod.id ≠ none := by
  intro hnone
  unfold mapLookup at hnone
  rw [List.find?_eq_none] at hnone
  have := hnone mod (List.mem_reverse.mpr h)
  simp at this

theorem reasonStep_lookup {opts : FullOptions} {idx : List StatsModule}
    {r : Reason} {rmod : StatsModule} (h : reasonStep opts idx r = some rmod) :
    mapLookup idx rmod.id = some rmod := by
  unfold reasonStep at h
  split at h
  · exact absurd h (by simp)
  · split at h
    · exact absurd h (by simp)
    · split at h
      · exact absurd h (by simp)
      · split at h
        · exact absurd h (by simp)
        · split at h
          · exact absurd h (by simp)
          · rename_i k hk hmap hid hasync
            cases h
            rwa [mapLookup_id hmap]

/-- The count of index keys not yet visited, the termination measure of the
traversal. -/
def unseenCount (idx : List StatsModule) (seen : List String) : Nat :=
  ((idx.map (fun m => m.id)).toFinset \ seen.toFinset).card

theorem unseenCount_le_of_subset {idx : List StatsModule} {seen seen' : List String}
    (h : seen ⊆ seen') : unseenCount idx seen' ≤ unseenCount idx seen := by
  apply Finset.card_le_card
  apply Finset.sdiff_subset_sdiff (le_refl _)
  intro x hx
  simp only [List.mem_toFinset] at hx ⊢
  exact h hx

theorem unseenCount_insert_lt {idx : List StatsModule} {cur : String}
    {seen : List String} (hk : cur ∈ idx.map (fun m => m.id)) (hs : cur ∉ seen) :
    unseenCount idx (insertSeen cur seen) < unseenCount idx seen := by
  rw [insertSeen_of_not_mem hs]
  unfold unseenCount
  rw [List.toFinset_cons, Finset.sdiff_insert]
  apply Finset.card_erase_lt_of_mem
  simp only [Finset.mem_sdiff, List.mem_toFinset]
  exact ⟨hk, hs⟩

theorem unseenCount_le_length (idx : List StatsModule) :
    unseenCount idx [] ≤ idx.length := by
  unfold unseenCount
  calc ((idx.map (fun m => m.id)).toFinset \ List.toFinset []).card
      ≤ (idx.map (fun m => m.id)).toFinset.card :=
        Finset.card_le_card (Finset.sdiff_subset)
    _ ≤ (idx.map (fun m => m.id)).length := List.toFinset_card_le _
    _ = idx.length := List.length_map _ _

/-! Monotonicity of the visited set and sufficiency of the fuel. -/

theorem loopReasons_mono {visitF : String → List String → DfsResult}
    {opts : FullOptions} {idx : List StatsModule}
    {init cur : String} {curName : Option String}
    (hF : ∀ nxt sn r sn', visitF nxt sn = .ok (r, sn') → sn ⊆ sn') :
    ∀ rs seen r seen',
      loopReasons visitF opts idx init cur curName rs seen = .ok (r, seen') →
      seen ⊆ seen' := by
  intro rs
  induction rs with
  | nil =>
    intro seen r seen' h
    simp only [loopReasons] at h
    cases h
    exact fun x hx => hx
  | cons reason rest ih =>
    intro seen r seen' h
    simp only [loopReasons] at h
    split at h
    · exact ih seen r seen' h
    · split at h
      · split at h
        · cases h
          exact fun x hx => hx
        · exact ih seen r seen' h
      · split at h
        · exact absurd h (by simp)
        · rename_i rmod _ heq
          cases h
          exact fun x hx => hF _ _ _ _ heq hx
        · rename_i rmod _ sn' heq
          exact fun x hx => ih _ r seen' h (hF _ _ _ _ heq hx)

theorem visitDFS_mono {opts : FullOptions} {idx : List StatsModule} :
    ∀ fuel init cur seen r seen',
      visitDFS opts idx fuel init cur seen = .ok (r, seen') →
      seen ⊆ seen' ∧ cur ∈ seen' := by
  intro fuel
  induction fuel with
  | zero =>
    intro init cur seen r seen' h
    exact absurd h (by simp [visitDFS])
  | succ f ih =>
    intro init cur seen r seen' h
    simp only [visitDFS] at h
    split at h
    · exact absurd h (by simp)
    · have hmono := loopReasons_mono
        (fun nxt sn r' sn' hh => (ih init nxt sn r' sn' hh).1) _ _ r seen' h
      constructor
      · exact fun x hx => hmono (subset_insertSeen cur seen hx)
      · exact hmono (mem_insertSeen_self cur seen)

theorem loopReasons_noFuel {visitF : String → List String → DfsResult}
    {opts : FullOptions} {idx : List StatsModule}
    {init cur : String} {curName : Option String} {B : Nat}
    (hFm : ∀ nxt sn r sn', visitF nxt sn = .ok (r, sn') → sn ⊆ sn')
    (hFnf : ∀ nxt sn, unseenCount idx sn ≤ B → nxt ∉ sn →
      visitF nxt sn ≠ .error .noFuel) :
    ∀ rs seen, unseenCount idx seen ≤ B →
      loopReasons visitF opts idx init cur curName rs seen ≠ .error .noFuel := by
  intro rs
  induction rs with
  | nil =>
    intro seen hB h
    simp [loopReasons] at h
  | cons reason rest ih =>
    intro seen hB h
    simp only [loopReasons] at h
    split at h
    · exact ih seen hB h
    · split at h
      · split at h
        · exact absurd h (by simp)
        · exact ih seen hB h
      · rename_i rmod hseen
        split at h
        · rename_i e heq
          cases h
          exact hFnf _ _ hB hseen heq
        · exact absurd h (by simp)
        · rename_i sn' heq
          have hsub := hFm _ _ _ _ heq
          exact ih sn' (le_trans (unseenCount_le_of_subset hsub) hB) h

theorem visitDFS_noFuel {opts : FullOptions} {idx : List StatsModule} :
    ∀ fuel init cur seen, unseenCount idx seen < fuel → cur ∉ seen →
      visitDFS opts idx fuel init cur seen ≠ .error .noFuel := by
  intro fuel
  induction fuel with
  | zero =>
    intro init cur seen hlt
    exact absurd hlt (by simp)
  | succ f ih =>
    intro init cur seen hlt hcur h
    simp only [visitDFS] at h
    split at h
    · exact absurd h (by simp)
    · rename_i mod hmap
      have hkey : cur ∈ idx.map (fun m => m.id) := by
        rw [← mapLookup_id hmap]
        exact List.mem_map_of_mem _ (mapLookup_mem hmap)
      have hdec : unseenCount idx (insertSeen cur seen) < unseenCount idx seen :=
        unseenCount_insert_lt hkey hcur
      have hB : unseenCount idx (insertSeen cur seen) < f := by
        omega
      exact loopReasons_noFuel
        (fun nxt sn r sn' hh => (visitDFS_mono f init nxt sn r sn' hh).1)
        (fun nxt sn hle hns => ih init nxt sn (by omega) hns)
        mod.reasons (insertSeen cur seen) (le_refl _) h

theorem loopReasons_typeErr {visitF : String → List String → DfsResult}
    {opts : FullOptions} {idx : List StatsModule}
    {init cur : String} {curName : Option String}
    (hFte : ∀ nxt sn, mapLookup idx nxt ≠ none → visitF nxt sn ≠ .error .typeErr) :
    ∀ rs seen,
      loopReasons visitF opts idx init cur curName rs seen ≠ .error .typeErr := by
  intro rs
  induction rs with
  | nil =>
    intro seen h
    simp [loopReasons] at h
  | cons reason rest ih =>
    intro seen h
    simp only [loopReasons] at h
    cases hstep : reasonStep opts idx reason with
    | none =>
      simp only [hstep] at h
      exact ih seen h
    | some rmod =>
      simp only [hstep] at h
      by_cases hmem : rmod.id ∈ seen
      · rw [if_pos hmem] at h
        by_cases hcond : (rmod.id == init && !(cur == init)) = true
        · rw [if_pos hcond] at h
          exact absurd h (by simp)
        · rw [if_neg hcond] at h
          exact ih seen h
      · rw [if_neg hmem] at h
        cases hv : visitF rmod.id seen with
        | error e =>
          simp only [hv] at h
          cases e with
          | typeErr =>
            refine hFte rmod.id seen ?_ hv
            rw [reasonStep_lookup hstep]
            simp
          | noFuel => simp at h
        | ok pr =>
          obtain ⟨popt, sn'⟩ := pr
          cases popt with
          | some p =>
            simp only [hv] at h
            simp at h
          | none =>
            simp only [hv] at h
            exact ih sn' h

theorem visitDFS_typeErr {opts : FullOptions} {idx : List StatsModule} :
    ∀ fuel init cur seen, mapLookup idx cur ≠ none →
      visitDFS opts idx fuel init cur seen ≠ .error .typeErr := by
  intro fuel
  induction fuel with
  | zero =>
    intro init cur seen hm h
    simp [visitDFS] at h
  | succ f ih =>
    intro init cur seen hm h
    simp only [visitDFS] at h
    split at h
    · exact hm (by assumption)
    · exact loopReasons_typeErr (fun nxt sn hn => ih init nxt sn hn) _ _ h

/-- A detector run started on an indexed module returns normally: the fuel
of `isCyclic` is sufficient and no lookup fails. -/
theorem isCyclic_top_ok {opts : FullOptions} {idx : List StatsModule} {m : String}
    (hm : mapLookup idx m ≠ none) :
    ∃ r, isCyclic opts idx m m [] = .ok r := by
  cases h : isCyclic opts idx m m [] with
  | ok r => exact ⟨r, rfl⟩
  | error e =>
    cases e with
    | typeErr => exact absurd h (visitDFS_typeErr _ m m [] hm)
    | noFuel =>
      refine absurd h (visitDFS_noFuel _ m m [] ?_ (by simp))
      have := unseenCount_le_length idx
      omega

/-! Soundness: a returned path witnesses a genuine cycle through the
start module. -/

theorem edge_of_reasonStep {opts : FullOptions} {idx : List StatsModule}
    {cur : String} {mod rmod : StatsModule} {reason : Reason}
    (hmod : mapLookup idx cur = some mod) (hr : reason ∈ mod.reasons)
    (hstep : reasonStep opts idx reason = some rmod) :
    Edge opts idx cur rmod.id :=
  ⟨mod, hmod, reason, hr, by simp [reasonTarget, hstep]⟩

theorem loopReasons_sound {visitF : String → List String → DfsResult}
    {opts : FullOptions} {idx : List StatsModule}
    {init cur : String} {curName : Option String} {mod : StatsModule}
    (hF : ∀ nxt sn p sn', visitF nxt sn = .ok (some p, sn') →
      ∃ c, Reaches opts idx nxt c ∧ c ≠ init ∧ Edge opts idx c init)
    (hmod : mapLookup idx cur = some mod) :
    ∀ rs seen p seen', (∀ r ∈ rs, r ∈ mod.reasons) →
      loopReasons visitF opts idx init cur curName rs seen = .ok (some p, seen') →
      ∃ c, Reaches opts idx cur c ∧ c ≠ init ∧ Edge opts idx c init := by
  intro rs
  induction rs with
  | nil =>
    intro seen p seen' hrs h
    simp [loopReasons] at h
  | cons reason rest ih =>
    intro seen p seen' hrs h
    have hrest : ∀ r ∈ rest, r ∈ mod.reasons :=
      fun r hr => hrs r (List.mem_cons_of_mem _ hr)
    have hhead : reason ∈ mod.reasons := hrs reason (List.mem_cons_self _ _)
    simp only [loopReasons] at h
    cases hstep : reasonStep opts idx reason with
    | none =>
      simp only [hstep] at h
      exact ih seen p seen' hrest h
    | some rmod =>
      simp only [hstep] at h
      by_cases hmem : rmod.id ∈ seen
      · rw [if_pos hmem] at h
        by_cases hcond : (rmod.id == init && !(cur == init)) = true
        · simp only [Bool.and_eq_true, beq_iff_eq, Bool.not_eq_true',
            beq_eq_false_iff_ne] at hcond
          obtain ⟨hid, hne⟩ := hcond
          refine ⟨cur, Relation.ReflTransGen.refl, hne, ?_⟩
          have := edge_of_reasonStep hmod hhead hstep
          rwa [hid] at this
        · rw [if_neg hcond] at h
          exact ih seen p seen' hrest h
      · rw [if_neg hmem] at h
        cases hv : visitF rmod.id seen with
        | error e =>
          simp only [hv] at h
          exact absurd h (by simp)
        | ok pr =>
          obtain ⟨popt, sn'⟩ := pr
          cases popt with
          | some p' =>
            obtain ⟨c, hreach, hcne, hcedge⟩ := hF rmod.id seen p' sn' hv
            exact ⟨c, Relation.ReflTransGen.head
              (edge_of_reasonStep hmod hhead hstep) hreach, hcne, hcedge⟩
          | none =>
            simp only [hv] at h
            exact ih sn' p seen' hrest h

theorem visitDFS_sound {opts : FullOptions} {idx : List StatsModule} :
    ∀ fuel init cur seen p seen',
      visitDFS opts idx fuel init cur seen = .ok (some p, seen') →
      ∃ c, Reaches opts idx cur c ∧ c ≠ init ∧ Edge opts idx c init := by
  intro fuel
  induction fuel with
  | zero =>
    intro init cur seen p seen' h
    exact absurd h (by simp [visitDFS])
  | succ f ih =>
    intro init cur seen p seen' h
    simp only [visitDFS] at h
    cases hmap : mapLookup idx cur with
    | none =>
      simp only [hmap] at h
      exact absurd h (by simp)
    | some mod =>
      simp only [hmap] at h
      exact loopReasons_sound (fun nxt sn p' sn' hh => ih init nxt sn p' sn' hh)
        hmap mod.reasons (insertSeen cur seen) p seen' (fun r hr => hr) h

theorem isCyclicTop_some_cycle {opts : FullOptions} {idx : List StatsModule}
    {m : String} {p : List String}
    (h : isCyclicTop opts idx m = .ok (some p)) : HasCycleThrough opts idx m := by
  unfold isCyclicTop at h
  cases hc : isCyclic opts idx m m [] with
  | error e =>
    rw [hc] at h
    exact absurd h (by simp [Except.map])
  | ok pr =>
    obtain ⟨popt, seen'⟩ := pr
    rw [hc] at h
    simp only [Except.map] at h
    have hp : popt = some p := by
      cases h
      rfl
    rw [hp] at hc
    obtain ⟨c, hr, hne, he⟩ :=
      visitDFS_sound (idx.length + 1) m m [] p seen' hc
    exact ⟨c, hne, hr, he⟩

/-! Shape of a returned cycle path: it starts at the search root, ends at
the module where the recursion unwound, and every element renders an
indexed module. -/

theorem loopReasons_path {visitF : String → List String → DfsResult}
    {opts : FullOptions} {idx : List StatsModule}
    {init cur : String} {curName : Option String} {mod : StatsModule}
    (hF : ∀ nxt sn p sn', visitF nxt sn = .ok (some p, sn') →
      ∃ mid, p = renderId idx init :: mid ++ [renderId idx nxt] ∧
        (∀ y ∈ p, ∃ z, mapLookup idx z ≠ none ∧ y = renderId idx z) ∧
        (nxt = init → 3 ≤ p.length))
    (hmod : mapLookup idx cur = some mod) (hname : curName = mod.name) :
    ∀ rs seen p seen',
      loopReasons visitF opts idx init cur curName rs seen = .ok (some p, seen') →
      ∃ mid, p = renderId idx init :: mid ++ [renderId idx cur] ∧
        (∀ y ∈ p, ∃ z, mapLookup idx z ≠ none ∧ y = renderId idx z) ∧
        (cur = init → 3 ≤ p.length) := by
  have hrender : renderName curName cur = renderId idx cur := by
    rw [hname]
    unfold renderId
    rw [hmod]
    rfl
  intro rs
  induction rs with
  | nil =>
    intro seen p seen' h
    simp [loopReasons] at h
  | cons reason rest ih =>
    intro seen p seen' h
    simp only [loopReasons] at h
    cases hstep : reasonStep opts idx reason with
    | none =>
      simp only [hstep] at h
      exact ih seen p seen' h
    | some rmod =>
      simp only [hstep] at h
      by_cases hmem : rmod.id ∈ seen
      · rw [if_pos hmem] at h
        by_cases hcond : (rmod.id == init && !(cur == init)) = true
        · simp only [Bool.and_eq_true, beq_iff_eq, Bool.not_eq_true',
            beq_eq_false_iff_ne] at hcond
          obtain ⟨hid, hne⟩ := hcond
          rw [if_pos (by simp [hid, hne])] at h
          simp only [Except.ok.injEq, Prod.mk.injEq, Option.some.injEq] at h
          obtain ⟨hp, hsn⟩ := h
          have hlook : mapLookup idx init = some rmod := by
            rw [← hid]
            exact reasonStep_lookup hstep
          have hfirst : renderName rmod.name rmod.id = renderId idx init := by
            rw [hid]
            unfold renderId
            rw [hlook]
            rfl
          refine ⟨[], ?_, ?_, fun hci => absurd hci hne⟩
          · rw [← hp, hfirst, hrender]
            rfl
          · intro y hy
            rw [← hp] at hy
            simp only [List.mem_cons, List.not_mem_nil, or_false] at hy
            rcases hy with hy | hy
            · exact ⟨init, by simp [hlook], by rw [hy, hfirst]⟩
            · exact ⟨cur, by simp [hmod], by rw [hy, hrender]⟩
        · rw [if_neg hcond] at h
          exact ih seen p seen' h
      · rw [if_neg hmem] at h
        cases hv : visitF rmod.id seen with
        | error e =>
          simp only [hv] at h
          exact absurd h (by simp)
        | ok pr =>
          obtain ⟨popt, sn'⟩ := pr
          cases popt with
          | some p' =>
            simp only [hv, Except.ok.injEq, Prod.mk.injEq, Option.some.injEq] at h
            obtain ⟨hp, hsn⟩ := h
            obtain ⟨mid', hsh, hmem', _⟩ := hF rmod.id seen p' sn' hv
            refine ⟨mid' ++ [renderId idx rmod.id], ?_, ?_, fun _ => ?_⟩
            · rw [← hp, hsh, hrender]
              simp
            · intro y hy
              rw [← hp] at hy
              rcases List.mem_append.mp hy with hy | hy
              · exact hmem' y hy
              · simp only [List.mem_singleton] at hy
                exact ⟨cur, by simp [hmod], by rw [hy, hrender]⟩
            · have : 2 ≤ p'.length := by
                rw [hsh]
                simp
              rw [← hp]
              simp
              omega
          | none =>
            simp only [hv] at h
            exact ih sn' p seen' h

theorem visitDFS_path {opts : FullOptions} {idx : List StatsModule} :
    ∀ fuel init cur seen p seen',
      visitDFS opts idx fuel init cur seen = .ok (some p, seen') →
      ∃ mid, p = renderId idx init :: mid ++ [renderId idx cur] ∧
        (∀ y ∈ p, ∃ z, mapLookup idx z ≠ none ∧ y = renderId idx z) ∧
        (cur = init → 3 ≤ p.length) := by
  intro fuel
  induction fuel with
  | zero =>
    intro init cur seen p seen' h
    exact absurd h (by simp [visitDFS])
  | succ f ih =>
    intro init cur seen p seen' h
    simp only [visitDFS] at h
    cases hmap : mapLookup idx cur with
    | none =>
      simp only [hmap] at h
      exact absurd h (by simp)
    | some mod =>
      simp only [hmap] at h
      exact loopReasons_path (fun nxt sn p' sn' hh => ih init nxt sn p' sn' hh)
        hmap rfl mod.reasons (insertSeen cur seen) p seen' h

/-! Completeness: when the traversal returns no cycle, every module it
visited has been fully explored, so no cycle through the start exists. -/

/-- A module `c` is fully explored with respect to the final visited set
`S`: every outgoing edge lands in `S`, and no edge of `c` closes back to
the search root (such an edge would have returned a cycle). -/
def Explored (opts : FullOptions) (idx : List StatsModule) (init : String)
    (S : List String) (c : String) : Prop :=
  (∀ t, Edge opts idx c t → t ∈ S) ∧ (c ≠ init → ¬Edge opts idx c init)

theorem Explored.mono {opts : FullOptions} {idx : List StatsModule}
    {init : String} {S S' : List String} {c : String}
    (hsub : S ⊆ S') (h : Explored opts idx init S c) :
    Explored opts idx init S' c :=
  ⟨fun t ht => hsub (h.1 t ht), h.2⟩

theorem loopReasons_none {visitF : String → List String → DfsResult}
    {opts : FullOptions} {idx : List StatsModule}
    {init cur : String} {curName : Option String}
    (hFm : ∀ nxt sn r sn', visitF nxt sn = .ok (r, sn') → sn ⊆ sn' ∧ nxt ∈ sn')
    (hFn : ∀ nxt sn sn', visitF nxt sn = .ok (none, sn') → init ∈ sn →
      ∀ c ∈ sn', c ∉ sn → Explored opts idx init sn' c) :
    ∀ rs seen seen', init ∈ seen →
      loopReasons visitF opts idx init cur curName rs seen = .ok (none, seen') →
      (∀ c ∈ seen', c ∉ seen → Explored opts idx init seen' c) ∧
      (∀ r ∈ rs, ∀ t, reasonTarget opts idx r = some t →
        t ∈ seen' ∧ ¬(t = init ∧ cur ≠ init)) := by
  intro rs
  induction rs with
  | nil =>
    intro seen seen' hinit h
    simp only [loopReasons, Except.ok.injEq, Prod.mk.injEq] at h
    obtain ⟨-, rfl⟩ := h
    exact ⟨fun c hc hcn => absurd hc hcn, fun r hr => absurd hr (by simp)⟩
  | cons reason rest ih =>
    intro seen seen' hinit h
    simp only [loopReasons] at h
    cases hstep : reasonStep opts idx reason with
    | none =>
      simp only [hstep] at h
      obtain ⟨h1, h2⟩ := ih seen seen' hinit h
      refine ⟨h1, fun r hr t ht => ?_⟩
      rcases List.mem_cons.mp hr with rfl | hr
      · exact absurd ht (by simp [reasonTarget, hstep])
      · exact h2 r hr t ht
    | some rmod =>
      simp only [hstep] at h
      by_cases hmem : rmod.id ∈ seen
      · rw [if_pos hmem] at h
        by_cases hcond : (rmod.id == init && !(cur == init)) = true
        · rw [if_pos hcond] at h
          exact absurd h (by simp)
        · rw [if_neg hcond] at h
          have hcond' : ¬(rmod.id = init ∧ cur ≠ init) := by
            simpa [Bool.and_eq_true, beq_iff_eq, Bool.not_eq_true',
              beq_eq_false_iff_ne] using hcond
          obtain ⟨h1, h2⟩ := ih seen seen' hinit h
          have hsub : seen ⊆ seen' :=
            loopReasons_mono (fun nxt sn r sn' hh => (hFm nxt sn r sn' hh).1)
              rest seen none seen' h
          refine ⟨h1, fun r hr t ht => ?_⟩
          rcases List.mem_cons.mp hr with rfl | hr
          · have htid : t = rmod.id := by
              simpa [reasonTarget, hstep] using ht.symm
            subst htid
            exact ⟨hsub hmem, hcond'⟩
          · exact h2 r hr t ht
      · rw [if_neg hmem] at h
        cases hv : visitF rmod.id seen with
        | error e =>
          simp only [hv] at h
          exact absurd h (by simp)
        | ok pr =>
          obtain ⟨popt, s1⟩ := pr
          cases popt with
          | some p' =>
            simp only [hv] at h
            exact absurd h (by simp)
          | none =>
            simp only [hv] at h
            obtain ⟨hsub1, hmem1⟩ := hFm rmod.id seen none s1 hv
            have hP1 := hFn rmod.id seen s1 hv hinit
            obtain ⟨hA, hB⟩ := ih s1 seen' (hsub1 hinit) h
            have hsub2 : s1 ⊆ seen' :=
              loopReasons_mono (fun nxt sn r sn' hh => (hFm nxt sn r sn' hh).1)
                rest s1 none seen' h
            constructor
            · intro c hc hcs
              by_cases hcs1 : c ∈ s1
              · exact Explored.mono hsub2 (hP1 c hcs1 hcs)
              · exact hA c hc hcs1
            · intro r hr t ht
              rcases List.mem_cons.mp hr with rfl | hr
              · have htid : t = rmod.id := by
                  simpa [reasonTarget, hstep] using ht.symm
                subst htid
                refine ⟨hsub2 hmem1, fun hti => ?_⟩
                exact hmem (hti.1 ▸ hinit)
              · exact hB r hr t ht

theorem visitDFS_none {opts : FullOptions} {idx : List StatsModule} :
    ∀ fuel init cur seen seen',
      visitDFS opts idx fuel init cur seen = .ok (none, seen') →
      init ∈ insertSeen cur seen →
      ∀ c ∈ seen', c ∉ seen → Explored opts idx init seen' c := by
  intro fuel
  induction fuel with
  | zero =>
    intro init cur seen seen' h
    exact absurd h (by simp [visitDFS])
  | succ f ih =>
    intro init cur seen seen' h hinit
    simp only [visitDFS] at h
    cases hmap : mapLookup idx cur with
    | none =>
      simp only [hmap] at h
      exact absurd h (by simp)
    | some mod =>
      simp only [hmap] at h
      obtain ⟨hP1, hP2⟩ := loopReasons_none
        (fun nxt sn r sn' hh => visitDFS_mono f init nxt sn r sn' hh)
        (fun nxt sn sn' hh hin c hc hcn =>
          ih init nxt sn sn' hh (subset_insertSeen nxt sn hin) c hc hcn)
        mod.reasons (insertSeen cur seen) seen' hinit h
      intro c hc hcs
      by_cases hccur : c = cur
      · subst hccur
        constructor
        · rintro t ⟨mod', hl, reason, hrm, ht⟩
          rw [hmap] at hl
          cases hl
          exact (hP2 reason hrm t ht).1
        · rintro hne ⟨mod', hl, reason, hrm, ht⟩
          rw [hmap] at hl
          cases hl
          exact (hP2 reason hrm init ht).2 ⟨rfl, hne⟩
      · refine hP1 c hc ?_
        intro hmemins
        rcases mem_insertSeen.mp hmemins with h' | h'
        · exact hccur h'
        · exact hcs h'

theorem isCyclic_none_no_cycle {opts : FullOptions} {idx : List StatsModule}
    {m : String} {seen' : List String}
    (h : isCyclic opts idx m m [] = .ok (none, seen')) :
    ¬HasCycleThrough opts idx m := by
  rintro ⟨c, hne, hreach, hedge⟩
  have hpost := visitDFS_none (idx.length + 1) m m [] seen' h
    (mem_insertSeen_self m [])
  have hmS : m ∈ seen' := (visitDFS_mono _ m m [] _ seen' h).2
  have hclosed : ∀ x, Reaches opts idx m x → x ∈ seen' := by
    intro x hx
    induction hx with
    | refl => exact hmS
    | tail hab hbc ihx =>
      rename_i b c'
      exact (hpost b ihx (by simp)).1 c' hbc
  exact (hpost c (hclosed c hreach) (by simp)).2 hne hedge

/-! The visited set stays duplicate-free, and the builder's index is
characterised by the filter predicate. -/

theorem loopReasons_nodup {visitF : String → List String → DfsResult}
    {opts : FullOptions} {idx : List StatsModule}
    {init cur : String} {curName : Option String}
    (hF : ∀ nxt sn r sn', visitF nxt sn = .ok (r, sn') → sn.Nodup → sn'.Nodup) :
    ∀ rs seen r seen', seen.Nodup →
      loopReasons visitF opts idx init cur curName rs seen = .ok (r, seen') →
      seen'.Nodup := by
  intro rs
  induction rs with
  | nil =>
    intro seen r seen' hsn h
    simp only [loopReasons, Except.ok.injEq, Prod.mk.injEq] at h
    obtain ⟨-, rfl⟩ := h
    exact hsn
  | cons reason rest ih =>
    intro seen r seen' hsn h
    simp only [loopReasons] at h
    cases hstep : reasonStep opts idx reason with
    | none =>
      simp only [hstep] at h
      exact ih seen r seen' hsn h
    | some rmod =>
      simp only [hstep] at h
      by_cases hmem : rmod.id ∈ seen
      · rw [if_pos hmem] at h
        by_cases hcond : (rmod.id == init && !(cur == init)) = true
        · rw [if_pos hcond] at h
          simp only [Except.ok.injEq, Prod.mk.injEq] at h
          obtain ⟨-, rfl⟩ := h
          exact hsn
        · rw [if_neg hcond] at h
          exact ih seen r seen' hsn h
      · rw [if_neg hmem] at h
        cases hv : visitF rmod.id seen with
        | error e =>
          simp only [hv] at h
          exact absurd h (by simp)
        | ok pr =>
          obtain ⟨popt, s1⟩ := pr
          cases popt with
          | some p' =>
            simp only [hv, Except.ok.injEq, Prod.mk.injEq] at h
            obtain ⟨-, rfl⟩ := h
            exact hF rmod.id seen _ s1 hv hsn
          | none =>
            simp only [hv] at h
            exact ih s1 r seen' (hF rmod.id seen _ s1 hv hsn) h

theorem visitDFS_nodup {opts : FullOptions} {idx : List StatsModule} :
    ∀ fuel init cur seen r seen',
      visitDFS opts idx fuel init cur seen = .ok (r, seen') →
      seen.Nodup → seen'.Nodup := by
  intro fuel
  induction fuel with
  | zero =>
    intro init cur seen r seen' h
    exact absurd h (by simp [visitDFS])
  | succ f ih =>
    intro init cur seen r seen' h hsn
    simp only [visitDFS] at h
    cases hmap : mapLookup idx cur with
    | none =>
      simp only [hmap] at h
      exact absurd h (by simp)
    | some mod =>
      simp only [hmap] at h
      exact loopReasons_nodup
        (fun nxt sn r' sn' hh hn => ih init nxt sn r' sn' hh hn)
        mod.reasons (insertSeen cur seen) r seen' (nodup_insertSeen hsn) h

theorem passesFilter_iff {opts : FullOptions} {m : StatsModule} :
    passesFilter opts m = true ↔
      m.orphan = false ∧ ∃ s, m.name = some s ∧ s ≠ "" ∧
        opts.includePattern s = true ∧ opts.excludePattern s = false := by
  cases hm : m.name with
  | none => simp [passesFilter, hm]
  | some s =>
    simp [passesFilter, hm, Bool.and_eq_true, bne_iff_ne, Bool.not_eq_true',
      and_assoc]

theorem buildIndex_lookup_iff {mods : List StatsModule} {opts : FullOptions}
    {m : StatsModule} (hnd : (mods.map (fun x => x.id)).Nodup) (hm : m ∈ mods) :
    mapLookup (buildIndex mods opts) m.id = some m ↔ passesFilter opts m = true := by
  constructor
  · intro h
    exact (List.mem_filter.mp (mapLookup_mem h)).2
  · intro hp
    have hmem : m ∈ buildIndex mods opts := List.mem_filter.mpr ⟨hm, hp⟩
    cases hx : mapLookup (buildIndex mods opts) m.id with
    | none => exact absurd hx (mapLookup_ne_none_of_mem hmem)
    | some x =>
      have hxid : x.id = m.id := mapLookup_id hx
      have hxmods : x ∈ mods := List.mem_of_mem_filter (mapLookup_mem hx)
      rw [List.inj_on_of_nodup_map hnd hxmods hm hxid]

theorem isCyclicTop_some_elim {opts : FullOptions} {idx : List StatsModule}
    {m : String} {p : List String}
    (h : isCyclicTop opts idx m = .ok (some p)) :
    ∃ seen', isCyclic opts idx m m [] = .ok (some p, seen') := by
  unfold isCyclicTop at h
  cases hc : isCyclic opts idx m m [] with
  | error e =>
    rw [hc] at h
    exact absurd h (by simp [Except.map])
  | ok pr =>
    obtain ⟨popt, seen'⟩ := pr
    rw [hc] at h
    simp only [Except.map] at h
    injection h with h2
    exact ⟨seen', by rw [h2]⟩

/-! Concrete module graphs used to instantiate the claims. -/

/-- Module `A` of the mutual pair: `B` imports `A` statically. -/
def modA : StatsModule := ⟨"A", some "./a.js", false, [⟨some "B", some "esm import"⟩]⟩

/-- Module `B` of the mutual pair: `A` imports `B` statically. -/
def modB : StatsModule := ⟨"B", some "./b.js", false, [⟨some "A", some "esm import"⟩]⟩

/-- The index of the two-module mutual dependency graph. -/
def idxAB : List StatsModule := buildIndex [modA, modB] defaultOptions

/-- First module of the three-cycle `A`, `B`, `C`. -/
def modC1 : StatsModule := ⟨"A", some "a", false, [⟨some "C", some "esm import"⟩]⟩

/-- Second module of the three-cycle. -/
def modC2 : StatsModule := ⟨"B", some "b", false, [⟨some "A", some "esm import"⟩]⟩

/-- Third module of the three-cycle. -/
def modC3 : StatsModule := ⟨"C", some "c", false, [⟨some "B", some "esm import"⟩]⟩

/-- The index of the three-module cycle. -/
def idx3 : List StatsModule := buildIndex [modC1, modC2, modC3] defaultOptions

/-- A module importing itself: its single reason names its own id. -/
def modSelf : StatsModule := ⟨"S", some "s.js", false, [⟨some "S", some "esm import"⟩]⟩

/-- Mutual pair whose closing edge is static. -/
def modAsyncA : StatsModule := ⟨"A", some "a.js", false, [⟨some "B", some "esm import"⟩]⟩

/-- Mutual pair partner whose inbound reference from `A` is a dynamic import. -/
def modAsyncB : StatsModule := ⟨"B", some "b.js", false, [⟨some "A", some "dynamic import"⟩]⟩

/-- Options with `allowAsyncCycles` enabled, everything else defaulted. -/
def allowAsyncOptions : FullOptions := mkFullOptions { allowAsyncCycles := some true }

/-- A module without a display name. -/
def modNoName : StatsModule := ⟨"N", none, false, [⟨some "A", some "esm import"⟩]⟩

/-- Options with an `onDetected` callback that always throws. -/
def throwingOptions : FullOptions :=
  { defaultOptions with onDetected := some (fun _ => .error "callback failed") }

/-! Claim theorems. -/

/-- Claim C1: for every index produced by the Graph Index Builder and every
module `m` in that index, the detector started at `m` returns a path iff
`m` participates in a cycle of index-retained modules connected by
non-skipped inbound-reference edges; in particular, when no such cycle
exists (every acyclic module graph), it returns no cycle. -/
theorem claim_cycle_detection_iff (mods : List StatsModule) (opts : FullOptions)
    (m : String) (hm : mapLookup (buildIndex mods opts) m ≠ none) :
    ((∃ p, isCyclicTop opts (buildIndex mods opts) m = .ok (some p)) ↔
      HasCycleThrough opts (buildIndex mods opts) m) ∧
    (¬HasCycleThrough opts (buildIndex mods opts) m →
      isCyclicTop opts (buildIndex mods opts) m = .ok none) := by
  obtain ⟨⟨popt, seen'⟩, hr⟩ := @isCyclic_top_ok opts (buildIndex mods opts) m hm
  have htop : isCyclicTop opts (buildIndex mods opts) m = .ok popt := by
    simp [isCyclicTop, hr, Except.map]
  constructor
  · constructor
    · rintro ⟨p, hp⟩
      exact isCyclicTop_some_cycle hp
    · intro hcyc
      cases popt with
      | some p => exact ⟨p, htop⟩
      | none => exact absurd hcyc (isCyclic_none_no_cycle hr)
  · intro hno
    cases popt with
    | some p => exact absurd (isCyclicTop_some_cycle htop) hno
    | none => exact htop

/-- Witness for C1 at the three-module cycle, started at module `A`. -/
theorem claim_cycle_detection_iff_witness :
    ((∃ p, isCyclicTop defaultOptions (buildIndex [modC1, modC2, modC3] defaultOptions) "A" =
        .ok (some p)) ↔
      HasCycleThrough defaultOptions (buildIndex [modC1, modC2, modC3] defaultOptions) "A") ∧
    (¬HasCycleThrough defaultOptions (buildIndex [modC1, modC2, modC3] defaultOptions) "A" →
      isCyclicTop defaultOptions (buildIndex [modC1, modC2, modC3] defaultOptions) "A" =
        .ok none) :=
  claim_cycle_detection_iff [modC1, modC2, modC3] defaultOptions "A" (by decide)

/-- Claim C3: every cycle path returned by the detector has length at least
two, and its first element (the rendering of the module referenced by the
closing edge) and its last element both render the module identity that
seeded the search. -/
theorem claim_path_endpoints (opts : FullOptions) (idx : List StatsModule)
    (m : String) (p : List String)
    (h : isCyclicTop opts idx m = .ok (some p)) :
    2 ≤ p.length ∧ p.head? = some (renderId idx m) ∧
      p.getLast? = some (renderId idx m) := by
  obtain ⟨seen', hc⟩ := isCyclicTop_some_elim h
  obtain ⟨mid, hsh, -, -⟩ := visitDFS_path (idx.length + 1) m m [] p seen' hc
  refine ⟨?_, ?_, ?_⟩
  · rw [hsh]
    simp
  · rw [hsh]
    rfl
  · rw [hsh, List.getLast?_concat]

/-- Witness for C3 at the three-module cycle, started at module `A`. -/
theorem claim_path_endpoints_witness :
    2 ≤ (["a", "b", "c", "a"] : List String).length ∧
    (["a", "b", "c", "a"] : List String).head? = some (renderId idx3 "A") ∧
    (["a", "b", "c", "a"] : List String).getLast? = some (renderId idx3 "A") :=
  claim_path_endpoints defaultOptions idx3 "A" ["a", "b", "c", "a"] rfl

/-- Claim C5: with `allowAsyncCycles` enabled, the two-module cycle whose
sole closing edge is a dynamic import is not reported from either start,
while the identical graph under default options is reported from both. -/
theorem claim_async_cycles :
    isCyclicTop allowAsyncOptions
        (buildIndex [modAsyncA, modAsyncB] allowAsyncOptions) "A" = .ok none ∧
    isCyclicTop allowAsyncOptions
        (buildIndex [modAsyncA, modAsyncB] allowAsyncOptions) "B" = .ok none ∧
    isCyclicTop defaultOptions
        (buildIndex [modAsyncA, modAsyncB] defaultOptions) "A" =
      .ok (some ["a.js", "b.js", "a.js"]) ∧
    isCyclicTop defaultOptions
        (buildIndex [modAsyncA, modAsyncB] defaultOptions) "B" =
      .ok (some ["b.js", "a.js", "b.js"]) :=
  ⟨rfl, rfl, rfl, rfl⟩

/-- Claim C6: a self-referential edge is never reported as a cycle on its
own: when the only closed walk through the start module is the self-loop
(that is, every non-skipped closing edge into the start module whose
source is reachable from it is the self-edge), detection from that module
returns no cycle. -/
theorem claim_self_loop (opts : FullOptions) (idx : List StatsModule) (m : String)
    (hm : mapLookup idx m ≠ none)
    (hself : ∀ c, Reaches opts idx m c → Edge opts idx c m → c = m) :
    isCyclicTop opts idx m = .ok none := by
  obtain ⟨⟨popt, seen'⟩, hr⟩ := @isCyclic_top_ok opts idx m hm
  cases popt with
  | some p =>
    obtain ⟨c, hreach, hne, hedge⟩ := visitDFS_sound (idx.length + 1) m m [] p seen' hr
    exact absurd (hself c hreach hedge) hne
  | none => simp [isCyclicTop, hr, Except.map]

/-- Witness for C6: the one-module graph whose only edge is a self-loop. -/
theorem claim_self_loop_witness :
    isCyclicTop defaultOptions (buildIndex [modSelf] defaultOptions) "S" = .ok none :=
  claim_self_loop defaultOptions (buildIndex [modSelf] defaultOptions) "S" (by decide)
    (fun c _ hc => by
      obtain ⟨mod, hl, -⟩ := hc
      have hid := mapLookup_id hl
      have hmem : mod ∈ buildIndex [modSelf] defaultOptions := mapLookup_mem hl
      have hidx : buildIndex [modSelf] defaultOptions = [modSelf] := rfl
      rw [hidx, List.mem_singleton] at hmem
      subst hmem
      exact hid.symm)

/-- Claim C2 counterexample: on the two-module mutual dependency (`A`
imports `B`, `B` imports `A`, both static, both indexed) the detector
returns a path of length three in which the start module's display name
appears twice, not a path of length two with each name exactly once. -/
theorem claim_two_module_counterexample :
    isCyclicTop defaultOptions idxAB "A" = .ok (some ["a.js", "b.js", "a.js"]) ∧
    (["a.js", "b.js", "a.js"] : List String).length = 3 ∧
    (["a.js", "b.js", "a.js"] : List String).count "a.js" = 2 ∧
    (["a.js", "b.js", "a.js"] : List String).count "b.js" = 1 :=
  ⟨rfl, rfl, by decide, by decide⟩

/-- Claim C2 amended: detection from either module of the two-module mutual
dependency returns a path of length exactly three that starts and ends with
the searched module's display name and contains the other module's display
name exactly once. -/
theorem claim_two_module_paths :
    (isCyclicTop defaultOptions idxAB "A" = .ok (some ["a.js", "b.js", "a.js"]) ∧
     isCyclicTop defaultOptions idxAB "B" = .ok (some ["b.js", "a.js", "b.js"])) ∧
    (["a.js", "b.js", "a.js"] : List String).count "a.js" = 2 ∧
    (["a.js", "b.js", "a.js"] : List String).count "b.js" = 1 ∧
    (["b.js", "a.js", "b.js"] : List String).count "b.js" = 2 ∧
    (["b.js", "a.js", "b.js"] : List String).count "a.js" = 1 :=
  ⟨⟨rfl, rfl⟩, by decide, by decide, by decide, by decide⟩

/-- Claim C4: a module of the input list is retained in the builder's index
iff it is not orphaned, has a non-empty display name, the name matches the
include pattern and does not match the exclude pattern; the defaults match
everything resp. nothing, and the empty module list yields an empty
index. -/
theorem claim_builder_retention (mods : List StatsModule) (opts : FullOptions)
    (hnd : (mods.map (fun x => x.id)).Nodup) :
    buildIndex [] opts = [] ∧
    (∀ s, defaultOptions.includePattern s = true ∧
      defaultOptions.excludePattern s = false) ∧
    ∀ m ∈ mods,
      (mapLookup (buildIndex mods opts) m.id = some m ↔
        (m.orphan = false ∧ ∃ s, m.name = some s ∧ s ≠ "" ∧
          opts.includePattern s = true ∧ opts.excludePattern s = false)) := by
  refine ⟨rfl, fun s => ⟨rfl, rfl⟩, fun m hm => ?_⟩
  rw [buildIndex_lookup_iff hnd hm, passesFilter_iff]

/-- Witness for C4 on a list with a named, an orphan-free and an unnamed
module. -/
theorem claim_builder_retention_witness :
    buildIndex [] defaultOptions = [] ∧
    (∀ s, defaultOptions.includePattern s = true ∧
      defaultOptions.excludePattern s = false) ∧
    ∀ m ∈ [modA, modNoName],
      (mapLookup (buildIndex [modA, modNoName] defaultOptions) m.id = some m ↔
        (m.orphan = false ∧ ∃ s, m.name = some s ∧ s ≠ "" ∧
          defaultOptions.includePattern s = true ∧
          defaultOptions.excludePattern s = false)) :=
  claim_builder_retention [modA, modNoName] defaultOptions (by decide)

/-- Claim C7: the traversal terminates on every finite index: the fuel
`idx.length + 1` used by `isCyclic` is never exhausted, and the visited
set marks each module at most once per top-level search. -/
theorem claim_termination (opts : FullOptions) (idx : List StatsModule)
    (m : String) :
    isCyclicTop opts idx m ≠ .error .noFuel ∧
    ∀ r seen', isCyclic opts idx m m [] = .ok (r, seen') → seen'.Nodup := by
  constructor
  · intro h
    have hlt : unseenCount idx [] < idx.length + 1 := by
      have := unseenCount_le_length idx
      omega
    have hnf := @visitDFS_noFuel opts idx (idx.length + 1)
      m m [] hlt (by simp)
    unfold isCyclicTop at h
    cases hc : isCyclic opts idx m m [] with
    | error e =>
      rw [hc] at h
      simp only [Except.map] at h
      injection h with he
      refine hnf ?_
      rw [← he]
      exact hc
    | ok pr =>
      rw [hc] at h
      simp [Except.map] at h
  · intro r seen' hc
    exact visitDFS_nodup (idx.length + 1) m m [] r seen' hc List.nodup_nil

/-- Witness for C7 at the three-module cycle: the detector run finishes
and its final visited set has no duplicates. -/
theorem claim_termination_witness :
    isCyclicTop defaultOptions idx3 "A" ≠ .error .noFuel ∧
    (["B", "C", "A"] : List String).Nodup :=
  ⟨(claim_termination defaultOptions idx3 "A").1,
   (claim_termination defaultOptions idx3 "A").2 (some ["a", "b", "c", "a"])
     ["B", "C", "A"] rfl⟩

/-- Claim C8: the detector never throws when started on an indexed module,
and a module whose display name is unavailable is never reported: it is
not retained by the builder, so the detection loop reports no cycle keyed
by its id. -/
theorem claim_detector_total (mods : List StatsModule) (opts : FullOptions)
    (hnd : (mods.map (fun x => x.id)).Nodup) :
    (∀ m, mapLookup (buildIndex mods opts) m ≠ none →
      ∃ r, isCyclicTop opts (buildIndex mods opts) m = .ok r) ∧
    (∀ mod ∈ mods, (mod.name = none ∨ mod.name = some "") →
      ∀ pr ∈ detectedCycles opts (buildIndex mods opts), pr.1 ≠ mod.id) := by
  constructor
  · intro m hm
    obtain ⟨⟨popt, seen'⟩, hr⟩ := @isCyclic_top_ok opts (buildIndex mods opts) m hm
    exact ⟨popt, by simp [isCyclicTop, hr, Except.map]⟩
  · intro mod hmod hname pr hpr heq
    obtain ⟨a, ha, hfa⟩ := List.mem_filterMap.mp hpr
    have hpra : pr.1 = a := by
      split at hfa
      · injection hfa with h2
        rw [← h2]
      · exact absurd hfa (by simp)
    unfold keysOf at ha
    obtain ⟨x, hxmem, hxid⟩ := List.mem_map.mp (List.mem_dedup.mp ha)
    have hxmods : x ∈ mods := List.mem_of_mem_filter hxmem
    have hxpass : passesFilter opts x = true := (List.mem_filter.mp hxmem).2
    have hxm : x = mod := by
      refine List.inj_on_of_nodup_map hnd hxmods hmod ?_
      rw [hxid, ← hpra]
      exact heq
    subst hxm
    obtain ⟨-, s, hs, hsne, -, -⟩ := passesFilter_iff.mp hxpass
    cases hname with
    | inl h0 =>
      rw [h0] at hs
      exact absurd hs (by simp)
    | inr h0 =>
      rw [h0] at hs
      injection hs with h1
      exact hsne h1.symm

/-- Witness for C8 on a graph holding the mutual pair and an unnamed
module. -/
theorem claim_detector_total_witness :
    (∀ m, mapLookup (buildIndex [modA, modB, modNoName] defaultOptions) m ≠ none →
      ∃ r, isCyclicTop defaultOptions
        (buildIndex [modA, modB, modNoName] defaultOptions) m = .ok r) ∧
    (∀ mod ∈ [modA, modB, modNoName], (mod.name = none ∨ mod.name = some "") →
      ∀ pr ∈ detectedCycles defaultOptions
        (buildIndex [modA, modB, modNoName] defaultOptions), pr.1 ≠ mod.id) :=
  claim_detector_total [modA, modB, modNoName] defaultOptions (by decide)

/-- Claim C9: a configured detection callback that throws pushes exactly
one error to the compilation's error list and produces no message through
the formatting path; without a callback the cycle yields exactly one
message `BASE_ERROR ++ path.join(" -> ")`, pushed to warnings, or to
errors when `failOnError` is set. -/
theorem claim_reporting (opts : FullOptions) (st : CompState)
    (path : List String) :
    (∀ cb e, opts.onDetected = some cb → cb path = .error e →
      reportCycle opts st path =
        { warnings := st.warnings, errors := st.errors ++ [e] }) ∧
    (opts.onDetected = none → opts.failOnError = false →
      reportCycle opts st path =
        { warnings := st.warnings ++
            [baseErrorMsg ++ String.intercalate " -> " path],
          errors := st.errors }) ∧
    (opts.onDetected = none → opts.failOnError = true →
      reportCycle opts st path =
        { warnings := st.warnings,
          errors := st.errors ++
            [baseErrorMsg ++ String.intercalate " -> " path] }) := by
  refine ⟨?_, ?_, ?_⟩
  · intro cb e hcb he
    simp [reportCycle, hcb, he]
  · intro hnone hfail
    simp [reportCycle, hnone, hfail]
  · intro hnone hfail
    simp [reportCycle, hnone, hfail]

/-- Witness for C9: a throwing callback pushes only its error; without a
callback the formatted message goes to warnings. -/
theorem claim_reporting_witness :
    reportCycle throwingOptions ⟨[], []⟩ ["a.js", "b.js", "a.js"] =
      { warnings := [], errors := ["callback failed"] } ∧
    reportCycle defaultOptions ⟨[], []⟩ ["a.js", "b.js", "a.js"] =
      { warnings := ["Circular dependency detected:\r\na.js -> b.js -> a.js"],
        errors := [] } := by
  constructor
  · exact (claim_reporting throwingOptions ⟨[], []⟩ ["a.js", "b.js", "a.js"]).1
      (fun _ => .error "callback failed") "callback failed" rfl rfl
  · have h := (claim_reporting defaultOptions ⟨[], []⟩
      ["a.js", "b.js", "a.js"]).2.1 rfl rfl
    rw [h]
    rfl

/-- Claim C10: a path returned by a top-level run on a builder-produced
index starts and ends with the normalized display name of the start
module, has length at least three, and every element is a normalized
display name of an indexed module, so the raw-id fallback is never
used. -/
theorem claim_top_path_shape (mods : List StatsModule) (opts : FullOptions)
    (m : String) (p : List String)
    (h : isCyclicTop opts (buildIndex mods opts) m = .ok (some p)) :
    ∃ modM sM, mapLookup (buildIndex mods opts) m = some modM ∧
      modM.name = some sM ∧ sM ≠ "" ∧ 3 ≤ p.length ∧
      p.head? = some (normalizePath sM) ∧
      p.getLast? = some (normalizePath sM) ∧
      ∀ y ∈ p, ∃ mod s, mod ∈ buildIndex mods opts ∧ mod.name = some s ∧
        s ≠ "" ∧ y = normalizePath s := by
  obtain ⟨seen', hc⟩ := isCyclicTop_some_elim h
  have hc' := hc
  unfold isCyclic at hc'
  simp only [visitDFS] at hc'
  cases hmap : mapLookup (buildIndex mods opts) m with
  | none =>
    simp only [hmap] at hc'
    exact absurd hc' (by simp)
  | some modM =>
    have hpass : passesFilter opts modM = true :=
      (List.mem_filter.mp (mapLookup_mem hmap)).2
    obtain ⟨-, sM, hname, hsne, -, -⟩ := passesFilter_iff.mp hpass
    have hrid : renderId (buildIndex mods opts) m = normalizePath sM := by
      simp [renderId, hmap, hname, renderName]
    obtain ⟨mid, hsh, hmemy, hlen⟩ :=
      visitDFS_path ((buildIndex mods opts).length + 1) m m [] p seen' hc
    refine ⟨modM, sM, rfl, hname, hsne, hlen rfl, ?_, ?_, ?_⟩
    · rw [hsh, hrid]
      rfl
    · rw [hsh, hrid, List.getLast?_concat]
    · intro y hy
      obtain ⟨z, hz, hyz⟩ := hmemy y hy
      cases hlz : mapLookup (buildIndex mods opts) z with
      | none => exact absurd hlz hz
      | some x =>
        have hxpass : passesFilter opts x = true :=
          (List.mem_filter.mp (mapLookup_mem hlz)).2
        obtain ⟨-, s, hsname, hsne', -, -⟩ := passesFilter_iff.mp hxpass
        refine ⟨x, s, mapLookup_mem hlz, hsname, hsne', ?_⟩
        rw [hyz]
        simp [renderId, hlz, hsname, renderName]

/-- Witness for C10 at the two-module mutual dependency with
"./"-prefixed display names. -/
theorem claim_top_path_shape_witness :
    ∃ modM sM, mapLookup (buildIndex [modA, modB] defaultOptions) "A" = some modM ∧
      modM.name = some sM ∧ sM ≠ "" ∧
      3 ≤ (["a.js", "b.js", "a.js"] : List String).length ∧
      (["a.js", "b.js", "a.js"] : List String).head? = some (normalizePath sM) ∧
      (["a.js", "b.js", "a.js"] : List String).getLast? = some (normalizePath sM) ∧
      ∀ y ∈ (["a.js", "b.js", "a.js"] : List String),
        ∃ mod s, mod ∈ buildIndex [modA, modB] defaultOptions ∧
          mod.name = some s ∧ s ≠ "" ∧ y = normalizePath s :=
  claim_top_path_shape [modA, modB] defaultOptions "A" ["a.js", "b.js", "a.js"] rfl

end RspackCircular
